import Mathlib

/-!
Verification of the DDP trajectory optimizer core (`DDP_BASE.h`).

The C++ `scalar_t` (double) is modelled by `ℚ`, state/input vectors by lists,
and thrown C++ exceptions by `Except`.  Stateful loops are embedded as
recursive functions over explicit state.  All definitions are computable so
that concrete instances evaluate by `decide`.
-/

namespace Ocs2

/-- Scalars of the optimizer (`scalar_t`, i.e. `double`) are modelled as rationals. -/
abbrev scalar := ℚ

/-- `std::numeric_limits<double>::max()`, the value assigned to the merit of a
line-search candidate whose rollout throws (DDP_BASE.h:969). -/
def scalarMax : scalar := 2 ^ 1024 - 2 ^ 971

/-- An affine time-varying controller (`LinearController`): parallel arrays of
time stamps, feedback gains, feed-forward biases and feed-forward increments.
A gain `K_k ∈ ℝ^{m×n}` is reduced to one scalar entry since no claim inspects
gain values. -/
structure LinearController where
  timeStamp : List scalar
  gainArray : List scalar
  biasArray : List scalar
  deltaBiasArray : List scalar
deriving DecidableEq

/-- `LinearController::empty()`: no time stamps. -/
def LinearController.empty (c : LinearController) : Bool := c.timeStamp.isEmpty

/-! ### Controller availability in `rolloutTrajectory` (DDP_BASE.h:188-215) -/

/-- Scan of the active partitions (DDP_BASE.h:189-198): each non-empty
controller updates the accumulator with its last time stamp
(`timeStamp_.back()`); the first empty controller ends the scan.  `acc` starts
at `initTime`. -/
def controllerAvailableTill (acc : scalar) : List LinearController → scalar
  | [] => acc
  | c :: rest =>
    if c.empty then acc
    else controllerAvailableTill (c.timeStamp.getLastD acc) rest

/-- First event time `e` in list order with `e ≥ avail` (DDP_BASE.h:209-214). -/
def firstEventGE (avail : scalar) : List scalar → Option scalar
  | [] => none
  | e :: rest => if avail ≤ e then some e else firstEventGE avail rest

/-- The time until which the controller is used during a rollout
(DDP_BASE.h:206-215).  `ctrls` is the sub-array of controllers for the active
partitions `initActive…finalActive`. -/
def useControllerTill (ctrls : List LinearController) (eventTimes : List scalar)
    (initTime finalTime : scalar) : scalar :=
  match ctrls with
  | [] => initTime
  | c0 :: _ =>
    if c0.empty then initTime
    else
      match firstEventGE (controllerAvailableTill initTime ctrls) eventTimes with
      | some e => min e finalTime
      | none => finalTime

/-- The claim's description of `controllerAvailableTill`: the last time stamp
of the last non-empty controller in the prefix of the scan that stops at the
first empty controller. -/
def controllerAvailableTillClaim (initTime : scalar) (ctrls : List LinearController) : scalar :=
  match (ctrls.takeWhile (fun c => !c.empty)).getLast? with
  | some c => c.timeStamp.getLastD initTime
  | none => initTime

/-- The least event time `e` with `e ≥ avail` (order independent). -/
def leastEventGE (avail : scalar) (events : List scalar) : Option scalar :=
  match events.filter (fun e => avail ≤ e) with
  | [] => none
  | e :: es => some (es.foldl min e)

/-- The claim's description of the use-controller-until rule. -/
def useControllerTillClaim (ctrls : List LinearController) (events : List scalar)
    (initTime finalTime : scalar) : scalar :=
  match ctrls with
  | [] => initTime
  | c0 :: _ =>
    if c0.empty then initTime
    else
      match leastEventGE (controllerAvailableTillClaim initTime ctrls) events with
      | some e => min e finalTime
      | none => finalTime

/-! ### Merit computation (DDP_BASE.h:553-566, 796-800, 948-952, 1644-1657) -/

/-- `calculateRolloutMerit` (DDP_BASE.h:554-566): the cost augmented by the
state-equality constraint penalty `½·λ·(ISE₂ + ISE₂_final)` with
`λ = coeff · base^iteration`, plus the inequality penalty. -/
def calculateRolloutMerit (stateConstraintPenaltyCoeff stateConstraintPenaltyBase : scalar)
    (iteration : ℕ) (cost stateEqConstraintISE stateEqFinalConstraintISE
    inequalityConstraintPenalty : scalar) : scalar :=
  let stateConstraintPenalty := stateConstraintPenaltyCoeff * stateConstraintPenaltyBase ^ iteration
  cost + 1/2 * stateConstraintPenalty * (stateEqConstraintISE + stateEqFinalConstraintISE)
    + inequalityConstraintPenalty

/-- The merit recorded by `baselineRollout` (DDP_BASE.h:796-800) and by
`lineSearchWorker` (DDP_BASE.h:948-952): `calculateRolloutMerit` applied to
the rollout cost. -/
def lineSearchRecordedMerit (coeff base : scalar) (iteration : ℕ)
    (cost ise2 ise2f penalty : scalar) : scalar :=
  calculateRolloutMerit coeff base iteration cost ise2 ise2f penalty

/-- The merit recorded by `runInit` (DDP_BASE.h:1651-1657): the inequality
penalty is first added to the rollout cost, then `calculateRolloutMerit` is
applied to the sum (which adds the inequality penalty again). -/
def runInitRecordedMerit (coeff base : scalar) (iteration : ℕ)
    (cost ise2 ise2f penalty : scalar) : scalar :=
  let costPlusPenalty := cost + penalty
  calculateRolloutMerit coeff base iteration costPlusPenalty ise2 ise2f penalty

/-- The merit formula of the claim:
`M = cost + ½·λ·(ISE₂ + ISE₂_final) + Penalty_ineq` with the inequality
penalty included exactly once. -/
def meritClaim (coeff base : scalar) (iteration : ℕ)
    (cost ise2 ise2f penalty : scalar) : scalar :=
  cost + 1/2 * (coeff * base ^ iteration) * (ise2 + ise2f) + penalty

/-! ### Convergence test and outer loop (DDP_BASE.h:1852-1898) -/

/-- The settings fields that the convergence test reads. -/
structure DdpConvergenceSettings where
  maxNumIterations : ℕ
  minRelCost : scalar
  minAbsConstraint1ISE : scalar
  minRelConstraint1ISE : scalar
deriving DecidableEq

/-- The loop-break computation of `runImpl` (DDP_BASE.h:1889-1895). -/
def isOptimizationConverged (s : DdpConvergenceSettings)
    (cachedCost nominalTotalCost cachedISE1 ise1 learningRateStar : scalar)
    (isInitInternalControllerEmpty : Bool) : Bool :=
  let relCost := |nominalTotalCost - cachedCost|
  let relConstraint1ISE := |ise1 - cachedISE1|
  let isConstraint1Satisfied : Bool :=
    decide (ise1 ≤ s.minAbsConstraint1ISE) || decide (relConstraint1ISE ≤ s.minRelConstraint1ISE)
  let isLearningRateStarZero : Bool :=
    decide (learningRateStar = 0) && !isInitInternalControllerEmpty
  let isCostFunctionConverged : Bool :=
    decide (relCost ≤ s.minRelCost) || isLearningRateStarZero
  isCostFunctionConverged && isConstraint1Satisfied

/-- The DDP main loop of `runImpl` (DDP_BASE.h:1861-1898) reduced to its
iteration control: starting from `iteration_ = 0` with the convergence flag
false, while `iteration_ + 1 < maxNumIterations` and the flag is false the
iteration counter is incremented and the flag recomputed for the new
iteration.  `converged k` is the value of `isOptimizationConverged` computed at
the end of iteration `k`.  Returns the final value of `iteration_`. -/
def ddpLoopGo (maxNumIterations : ℕ) (converged : ℕ → Bool) : ℕ → ℕ → Bool → ℕ
  | 0, it, _ => it
  | fuel+1, it, flag =>
    if it + 1 < maxNumIterations ∧ flag = false then
      ddpLoopGo maxNumIterations converged fuel (it+1) (converged (it+1))
    else it

/-- The final iteration counter of the DDP main loop. -/
def ddpFinalIteration (maxNumIterations : ℕ) (converged : ℕ → Bool) : ℕ :=
  ddpLoopGo maxNumIterations converged maxNumIterations 0 false

/-! ### Input validation of `runImpl` (DDP_BASE.h:1764-1781) -/

/-- A double-precision component of the initial state: either a finite value or
a non-finite one (NaN or an infinity), which `ℚ` cannot represent directly. -/
inductive FVal
  | fin (x : scalar)
  | nonfin
deriving DecidableEq

/-- Whether a state component is finite. -/
def FVal.isFinite : FVal → Bool
  | .fin _ => true
  | .nonfin => false

/-- The error kinds thrown by the modelled fragments. -/
inductive DdpError
  | badInputLearningRate
  | badInputEmptyPartitioning
  | badInputNonFiniteState
  | rewindIndexTooLarge
deriving DecidableEq

/-- Modelled from the spec: `numerics::almost_ge` (its source is not part of
this repository); the spec states the validated condition as `maxLR ≥ minLR`. -/
def almost_ge (a b : scalar) : Bool := decide (b ≤ a)

/-- `initState.allFinite()`. -/
def allFinite (x : List FVal) : Bool := x.all FVal.isFinite

/-- The input-validation prefix of `runImpl` (DDP_BASE.h:1764-1775), executed
before any member of the optimizer is assigned. -/
def runImplValidate (maxLearningRate minLearningRate : scalar)
    (partitioningTimes : List scalar) (initState : List FVal) : Except DdpError Unit :=
  if ¬ almost_ge maxLearningRate minLearningRate then .error .badInputLearningRate
  else if partitioningTimes.isEmpty then .error .badInputEmptyPartitioning
  else if ¬ allFinite initState then .error .badInputNonFiniteState
  else .ok ()

/-- The start of `runImpl`: validation first, only then the update of
`numPartitions_` (DDP_BASE.h:1777-1781).  Returns the new partition count. -/
def runImplStart (maxLearningRate minLearningRate : scalar)
    (partitioningTimes : List scalar) (initState : List FVal) : Except DdpError ℕ := do
  let _ ← runImplValidate maxLearningRate minLearningRate partitioningTimes initState
  pure (partitioningTimes.length - 1)

/-! ### Line search (DDP_BASE.h:734-975)

The candidate step sizes are `α_j = maxLearningRate · r^j` (DDP_BASE.h:838).
A worker evaluates candidate `j` by one rollout; a thrown rollout is caught in
`lineSearchWorker` and the candidate's merit becomes
`std::numeric_limits<scalar_t>::max()` (DDP_BASE.h:968-974).  The rollout
outcome of candidate `j` is abstracted as `cand j : Except Unit scalar`
(`.error` = the rollout threw, `.ok m` = merit `m`).  The interleaving in
which worker threads complete their commit sections is abstracted as a list
`order` of candidate indices; the greedy selection (DDP_BASE.h:867-905) is a
fold over that list.  A candidate a worker skips because a larger accepted `α`
already exists (DDP_BASE.h:850-859) is an identity step of this fold, so the
fold over a full permutation also covers executions with skipped candidates. -/

/-- Candidate learning rate `α_j` (DDP_BASE.h:838). -/
def lsAlpha (maxLearningRate lineSearchContractionRate : scalar) (j : ℕ) : scalar :=
  maxLearningRate * lineSearchContractionRate ^ j

/-- Merit of candidate `j` after the catch in `lineSearchWorker`. -/
def lsCandidateMerit (cand : ℕ → Except Unit scalar) (j : ℕ) : scalar :=
  match cand j with
  | .ok m => m
  | .error _ => scalarMax

/-- The Armijo-like acceptance condition of the commit section
(DDP_BASE.h:876, first conjunct): the candidate's merit improves on the
baseline merit by the factor `1 - 10⁻³·α`. -/
def lsAccepts (baselineTotalCost maxLearningRate lineSearchContractionRate : scalar)
    (cand : ℕ → Except Unit scalar) (j : ℕ) : Prop :=
  lsCandidateMerit cand j <
    baselineTotalCost * (1 - 1/1000 * lsAlpha maxLearningRate lineSearchContractionRate j)

instance (b m r : scalar) (cand : ℕ → Except Unit scalar) (j : ℕ) :
    Decidable (lsAccepts b m r cand j) := by
  unfold lsAccepts
  infer_instance

/-- The feed-forward update of `lineSearchWorker` (DDP_BASE.h:932-936):
`b_k ← b_k + α·Δb_k` for every `k` below the number of time stamps. -/
def lsUpdateController (learningRate : scalar) (c : LinearController) : LinearController :=
  { c with biasArray := c.biasArray.mapIdx (fun k b =>
      if k < c.timeStamp.length then b + learningRate * c.deltaBiasArray.getD k 0 else b) }

/-- The shared state mutated under the line-search mutex. -/
structure LSState where
  learningRateStar : scalar
  nominalTotalCost : scalar
  nominalControllersStock : List LinearController
deriving DecidableEq

/-- One commit section (DDP_BASE.h:867-905): candidate `j` replaces the shared
state exactly when its merit beats the baseline by the Armijo-like margin and
its learning rate beats the current `learningRateStar_`. -/
def lsStep (baselineTotalCost maxLearningRate lineSearchContractionRate : scalar)
    (cand : ℕ → Except Unit scalar) (initLScontrollersStock : List LinearController)
    (s : LSState) (j : ℕ) : LSState :=
  if lsAccepts baselineTotalCost maxLearningRate lineSearchContractionRate cand j ∧
      lsAlpha maxLearningRate lineSearchContractionRate j > s.learningRateStar then
    { learningRateStar := lsAlpha maxLearningRate lineSearchContractionRate j,
      nominalTotalCost := lsCandidateMerit cand j,
      nominalControllersStock :=
        initLScontrollersStock.map
          (lsUpdateController (lsAlpha maxLearningRate lineSearchContractionRate j)) }
  else s

/-- `deltaBiasArray_.clear()` applied to every partition
(DDP_BASE.h:745-747 and 770-772). -/
def clearDeltaBias (cs : List LinearController) : List LinearController :=
  cs.map (fun c => { c with deltaBiasArray := [] })

/-- The outcome of `lineSearch`.  `numRollouts` counts the forward rollouts
performed: the baseline rollout plus one per evaluated candidate. -/
structure LineSearchResult where
  learningRateStar : scalar
  nominalTotalCost : scalar
  nominalControllersStock : List LinearController
  numRollouts : ℕ
deriving DecidableEq

/-- `lineSearch` (DDP_BASE.h:734-778): the baseline rollout fixes
`baselineTotalCost` and seeds `learningRateStar_ = 0`; if
`maxLearningRate < limitEpsilon` the feed-forward increments are cleared and
the baseline result is returned; otherwise the candidates listed in `order`
are folded through the commit section and the feed-forward increments are
cleared at the end. -/
def lineSearch (maxLearningRate lineSearchContractionRate limitEpsilon : scalar)
    (baselineTotalCost : scalar) (cand : ℕ → Except Unit scalar) (order : List ℕ)
    (nominalControllersStock : List LinearController) : LineSearchResult :=
  if maxLearningRate < limitEpsilon then
    { learningRateStar := 0, nominalTotalCost := baselineTotalCost,
      nominalControllersStock := clearDeltaBias nominalControllersStock,
      numRollouts := 1 }
  else
    let s := order.foldl
      (lsStep baselineTotalCost maxLearningRate lineSearchContractionRate cand
        nominalControllersStock)
      ⟨0, baselineTotalCost, nominalControllersStock⟩
    { learningRateStar := s.learningRateStar, nominalTotalCost := s.nominalTotalCost,
      nominalControllersStock := clearDeltaBias s.nominalControllersStock,
      numRollouts := 1 + order.length }

/-! ### Per-partition trajectory assembly in `rolloutTrajectory`
(DDP_BASE.h:223-295)

Only the time stamps and the post-event indices are retained; states, inputs
and model data are parallel arrays popped and appended together with the time
stamps, so the claimed invariant depends on the time array alone. -/

/-- One integrator output (or assembled partition trajectory): time stamps and
post-event indices. -/
structure RolloutSeg where
  times : List scalar
  post : List ℕ
deriving DecidableEq

/-- Well-formedness of a trajectory segment, from the integrator contract of
the spec: post-event indices are strictly increasing positions
`1 ≤ j < |times|`, and the last pre-event sample and the first post-event
sample share a time stamp. -/
def SegWF (s : RolloutSeg) : Prop :=
  s.post.Pairwise (· < ·) ∧
  ∀ j ∈ s.post, 1 ≤ j ∧ j < s.times.length ∧ s.times.getD (j-1) 0 = s.times.getD j 0

/-- Concatenation of an operating-point tail onto the controller part, with
the tail's post-event indices shifted by the current trajectory length
(DDP_BASE.h:278-291). -/
def appendShifted (a b : RolloutSeg) : RolloutSeg :=
  { times := a.times ++ b.times, post := a.post ++ b.post.map (· + a.times.length) }

/-- Assembly of one partition of `rolloutTrajectory` (DDP_BASE.h:225-295).
`ctrlRun a b` and `opRun a b` are the integrator outputs on `[a, b]` with and
without a controller.  If the controller interval is non-empty it is rolled
out first; if the operating-point interval is non-empty and the controller
rollout ended directly past an event, the duplicated last sample is popped
(its post-event index is retained) and the popped time starts the
operating-point rollout, whose post-event indices are shifted by the remaining
prefix length before concatenation. -/
def rolloutPartition (t0 tf useCtrlTill : scalar)
    (ctrlRun opRun : scalar → scalar → RolloutSeg) : RolloutSeg :=
  let ctrlEnd := max t0 (min useCtrlTill tf)
  let cs := if t0 < ctrlEnd then ctrlRun t0 ctrlEnd else ⟨[], []⟩
  if ctrlEnd < tf then
    if cs.post ≠ [] ∧ cs.post.getLastD 0 + 1 = cs.times.length then
      appendShifted ⟨cs.times.dropLast, cs.post⟩ (opRun (cs.times.getLastD 0) tf)
    else
      appendShifted cs (opRun ctrlEnd tf)
  else cs

/-- The partition loop of `rolloutTrajectory`: every active partition is
assembled independently from its clamped bounds. -/
def rolloutTrajectory (partitionBounds : List (scalar × scalar)) (useCtrlTill : scalar)
    (ctrlRun opRun : scalar → scalar → RolloutSeg) : List RolloutSeg :=
  partitionBounds.map (fun p => rolloutPartition p.1 p.2 useCtrlTill ctrlRun opRun)

/-! ### `rewindOptimizer` (DDP_BASE.h:1465-1496)

The six per-partition arrays are rewound inside one index loop; since the loop
body touches each array independently, each array is modelled by its own pass
of the same loop.  The controller array is rewound with `swap`, the Riccati
seeds with assignment.  Timers and the rewind counter are not modelled. -/

/-- Swap of two list entries (`std::swap` on array cells). -/
def swapIdx (d : α) (l : List α) (i j : ℕ) : List α :=
  (l.set i (l.getD j d)).set j (l.getD i d)

/-- The rewind loop for an array rewound by `swap`
(`nominalControllersStock_`, DDP_BASE.h:1479-1495): index `i` below
`preserved = numPartitions − firstIndex` swaps cells `i` and `firstIndex + i`;
any later index is cleared to `zero`. -/
def rewindSwapGo (firstIndex preserved : ℕ) (zero d : α) : ℕ → ℕ → List α → List α
  | 0, _, l => l
  | fuel+1, i, l =>
    rewindSwapGo firstIndex preserved zero d fuel (i+1)
      (if i < preserved then swapIdx d l i (firstIndex + i) else l.set i zero)

/-- The rewind loop for an array rewound by assignment (`SmFinalStock_` and
the other Riccati seeds, DDP_BASE.h:1479-1495). -/
def rewindAssignGo (firstIndex preserved : ℕ) (zero d : α) : ℕ → ℕ → List α → List α
  | 0, _, l => l
  | fuel+1, i, l =>
    rewindAssignGo firstIndex preserved zero d fuel (i+1)
      (if i < preserved then l.set i (l.getD (firstIndex + i) d) else l.set i zero)

/-- The per-partition members rewound by `rewindOptimizer`; `C` is the
controller type, `M` the state-matrix type, `V` the state-vector type. -/
structure RewindState (C M V : Type) where
  nominalControllersStock : List C
  SmFinalStock : List M
  SvFinalStock : List V
  SveFinalStock : List V
  sFinalStock : List scalar
  xFinalStock : List V

/-- `rewindOptimizer(firstIndex)` (DDP_BASE.h:1465-1496): no-op for
`firstIndex = 0`, error when `firstIndex` exceeds the partition count,
otherwise one left shift by `firstIndex` with the tail zeroed/cleared. -/
def rewindOptimizer {C M V : Type} (emptyController : C) (zeroM : M) (zeroV : V)
    (numPartitions firstIndex : ℕ) (s : RewindState C M V) :
    Except DdpError (RewindState C M V) :=
  if firstIndex = 0 then .ok s
  else if numPartitions < firstIndex then .error .rewindIndexTooLarge
  else
    let preserved := numPartitions - firstIndex
    .ok
      { nominalControllersStock :=
          rewindSwapGo firstIndex preserved emptyController emptyController numPartitions 0
            s.nominalControllersStock,
        SmFinalStock :=
          rewindAssignGo firstIndex preserved zeroM zeroM numPartitions 0 s.SmFinalStock,
        SvFinalStock :=
          rewindAssignGo firstIndex preserved zeroV zeroV numPartitions 0 s.SvFinalStock,
        SveFinalStock :=
          rewindAssignGo firstIndex preserved zeroV zeroV numPartitions 0 s.SveFinalStock,
        sFinalStock :=
          rewindAssignGo firstIndex preserved 0 0 numPartitions 0 s.sFinalStock,
        xFinalStock :=
          rewindAssignGo firstIndex preserved zeroV zeroV numPartitions 0 s.xFinalStock }

/-! ## Theorems -/

theorem foldl_min_of_le (a : scalar) (l : List scalar) (h : ∀ x ∈ l, a ≤ x) :
    l.foldl min a = a := by
  induction l generalizing a with
  | nil => rfl
  | cons x xs ih =>
    have hax : min a x = a := min_eq_left (h x (List.mem_cons_self x xs))
    simpa [hax] using ih a (fun y hy => h y (List.mem_cons_of_mem x hy))

theorem firstEventGE_eq_least (avail : scalar) (events : List scalar)
    (hs : events.Sorted (· ≤ ·)) : firstEventGE avail events = leastEventGE avail events := by
  induction events with
  | nil => rfl
  | cons e rest ih =>
    rcases List.sorted_cons.mp hs with ⟨hhead, htail⟩
    by_cases hae : avail ≤ e
    · have hfilter : (e :: rest).filter (fun x => decide (avail ≤ x)) =
          e :: rest.filter (fun x => decide (avail ≤ x)) := by
        simp [List.filter_cons, hae]
      have hmin : (rest.filter (fun x => decide (avail ≤ x))).foldl min e = e := by
        refine foldl_min_of_le e _ (fun x hx => ?_)
        exact hhead x (List.mem_of_mem_filter hx)
      simp [firstEventGE, leastEventGE, hae, hfilter, hmin]
    · have hfilter : (e :: rest).filter (fun x => decide (avail ≤ x)) =
          rest.filter (fun x => decide (avail ≤ x)) := by
        simp [List.filter_cons, hae]
      have : leastEventGE avail (e :: rest) = leastEventGE avail rest := by
        simp [leastEventGE, hfilter]
      simp [firstEventGE, hae, this, ih htail]

theorem getLastD_of_ne_nil {α : Type _} (l : List α) (a b : α) (h : l ≠ []) :
    l.getLastD a = l.getLastD b := by
  rcases Option.isSome_iff_exists.mp (List.getLast?_isSome.mpr h) with ⟨x, hx⟩
  simp [List.getLastD_eq_getLast?, hx]

theorem controllerAvailableTillClaim_cons (acc : scalar) (c : LinearController)
    (rest : List LinearController) (hc : ¬ c.empty) :
    controllerAvailableTillClaim acc (c :: rest) =
      controllerAvailableTillClaim (c.timeStamp.getLastD acc) rest := by
  have htw : (c :: rest).takeWhile (fun x => !x.empty) =
      c :: rest.takeWhile (fun x => !x.empty) := by
    simp [List.takeWhile_cons, hc]
  unfold controllerAvailableTillClaim
  rw [htw]
  cases hrest : rest.takeWhile (fun x => !x.empty) with
  | nil => simp
  | cons c2 l2 =>
    rw [List.getLast?_cons_cons]
    cases hl : (c2 :: l2).getLast? with
    | none => simp at hl
    | some cl =>
      have hclmem : cl ∈ rest.takeWhile (fun x => !x.empty) := by
        rw [hrest]
        exact List.mem_of_getLast?_eq_some hl
      have hclne : cl.timeStamp ≠ [] := by
        have := List.mem_takeWhile_imp hclmem
        simpa [LinearController.empty, List.isEmpty_iff] using this
      exact getLastD_of_ne_nil cl.timeStamp _ _ hclne

theorem controllerAvailableTill_eq_claim (acc : scalar) (ctrls : List LinearController) :
    controllerAvailableTill acc ctrls = controllerAvailableTillClaim acc ctrls := by
  induction ctrls generalizing acc with
  | nil => rfl
  | cons c rest ih =>
    by_cases hc : c.empty
    · simp [controllerAvailableTill, controllerAvailableTillClaim, hc, List.takeWhile_cons]
    · rw [controllerAvailableTill, if_neg hc, ih,
        controllerAvailableTillClaim_cons acc c rest hc]

/-- Claim C2: in `rolloutTrajectory`, the controller is used until `initTime`
when the `initActive` partition's controller is empty; otherwise until
`finalTime`, truncated to `min(e, finalTime)` when an event time
`e ≥ controllerAvailableTill` exists, where `controllerAvailableTill` is the
last time stamp of the last non-empty controller of the scan that stops at the
first empty controller.  For sorted event times the code's first matching
event is the least one, so the code computes exactly the claimed rule. -/
theorem c2_useControllerTill (ctrls : List LinearController) (events : List scalar)
    (initTime finalTime : scalar) (hs : events.Sorted (· ≤ ·)) :
    useControllerTill ctrls events initTime finalTime =
      useControllerTillClaim ctrls events initTime finalTime := by
  cases ctrls with
  | nil => rfl
  | cons c0 rest =>
    simp only [useControllerTill, useControllerTillClaim]
    by_cases hc : c0.empty
    · simp [hc]
    · rw [if_neg hc, if_neg hc, controllerAvailableTill_eq_claim,
        firstEventGE_eq_least _ _ hs]

/-- Witness for C2 on a two-partition stock with one event after the
controller horizon. -/
theorem c2_useControllerTill_witness :
    ([(2:ℚ), 4].Sorted (· ≤ ·)) ∧
      useControllerTill [⟨[0, 1], [], [], []⟩, ⟨[1, 2], [], [], []⟩] [2, 4] 0 3 =
        useControllerTillClaim [⟨[0, 1], [], [], []⟩, ⟨[1, 2], [], [], []⟩] [2, 4] 0 3 :=
  ⟨by decide, c2_useControllerTill _ _ 0 3 (by decide)⟩

/-- Claim C3, resolution: the line-search baseline and every line-search
candidate record the claimed merit
`cost + ½·λ·(ISE₂ + ISE₂_final) + Penalty_ineq`, but `runInit` adds the
inequality penalty to the cost before calling `calculateRolloutMerit`, which
adds it again, so the iteration-0 value exceeds the claimed formula by one
inequality penalty whenever that penalty is non-zero. -/
theorem c3_merit_formula (coeff base : scalar) (iteration : ℕ)
    (cost ise2 ise2f penalty : scalar) :
    lineSearchRecordedMerit coeff base iteration cost ise2 ise2f penalty =
        meritClaim coeff base iteration cost ise2 ise2f penalty ∧
      runInitRecordedMerit coeff base iteration cost ise2 ise2f penalty =
        meritClaim coeff base iteration cost ise2 ise2f penalty + penalty := by
  constructor
  · simp [lineSearchRecordedMerit, calculateRolloutMerit, meritClaim]
  · simp [runInitRecordedMerit, calculateRolloutMerit, meritClaim]
    ring

/-- Evaluation of the C3 divergence at the failing input: with unit cost and
unit inequality penalty (and zero state-constraint ISEs), `runInit` records
merit 3 while the claimed formula gives 2. -/
theorem c3_merit_formula_failing_input :
    runInitRecordedMerit 1 1 0 1 0 0 1 = 3 ∧ meritClaim 1 1 0 1 0 0 1 = 2 := by
  constructor <;> norm_num [runInitRecordedMerit, calculateRolloutMerit, meritClaim]

/-- Claim C9: the validation prefix of `runImpl` fails (with a BadInput error)
exactly when the maximum learning rate is below the minimum one, or the
partitioning sequence is empty, or a component of the initial state is
non-finite; and on a validation error `runImpl` returns before producing the
updated optimizer state. -/
theorem c9_runImpl_validation (maxLR minLR : scalar) (partitioningTimes : List scalar)
    (initState : List FVal) :
    ((∃ e, runImplValidate maxLR minLR partitioningTimes initState = .error e) ↔
      (maxLR < minLR ∨ partitioningTimes = [] ∨ ∃ v ∈ initState, v.isFinite = false)) ∧
    (∀ e, runImplValidate maxLR minLR partitioningTimes initState = .error e →
      runImplStart maxLR minLR partitioningTimes initState = .error e) := by
  have hfin : (¬ allFinite initState = true) ↔ (∃ v ∈ initState, v.isFinite = false) := by
    simp [allFinite, List.all_eq_true]
  constructor
  · by_cases h1 : maxLR < minLR <;> by_cases h2 : partitioningTimes = [] <;>
      by_cases h3 : allFinite initState <;>
      simp [runImplValidate, almost_ge, not_le, h1, h2, h3, List.isEmpty_iff, hfin.symm]
  · intro e he
    simp [runImplStart, he, Bind.bind, Except.bind]

theorem lineSearch_clears_deltaBias (maxLR rate eps M0 : scalar)
    (cand : ℕ → Except Unit scalar) (order : List ℕ) (ctrls : List LinearController) :
    ∀ c ∈ (lineSearch maxLR rate eps M0 cand order ctrls).nominalControllersStock,
      c.deltaBiasArray = [] := by
  intro c hc
  unfold lineSearch at hc
  split_ifs at hc <;>
    · simp only [clearDeltaBias, List.mem_map] at hc
      rcases hc with ⟨c', _, rfl⟩
      rfl

/-- Claim C10: whichever branch `lineSearch` returns through, every
partition's controller has an empty feed-forward increment array. -/
theorem c10_deltaBias_cleared (maxLR rate eps M0 : scalar) (cand : ℕ → Except Unit scalar)
    (order : List ℕ) (ctrls : List LinearController) :
    ∀ c ∈ (lineSearch maxLR rate eps M0 cand order ctrls).nominalControllersStock,
      c.deltaBiasArray = [] :=
  lineSearch_clears_deltaBias maxLR rate eps M0 cand order ctrls

/-- Witness for C10 on a one-partition stock with a non-empty feed-forward
increment array going in. -/
theorem c10_deltaBias_cleared_witness :
    (⟨[1], [2], [3], []⟩ : LinearController).deltaBiasArray = [] :=
  c10_deltaBias_cleared 0 1 1 5 (fun _ => Except.ok 0) [] [⟨[1], [2], [3], [4]⟩]
    ⟨[1], [2], [3], []⟩ (by decide)

theorem lsStep_learningRateStar (b m r : scalar) (cand : ℕ → Except Unit scalar)
    (init : List LinearController) (s : LSState) (j : ℕ) :
    (lsStep b m r cand init s j).learningRateStar =
      if lsAccepts b m r cand j then max s.learningRateStar (lsAlpha m r j)
      else s.learningRateStar := by
  unfold lsStep
  by_cases hacc : lsAccepts b m r cand j
  · by_cases hgt : lsAlpha m r j > s.learningRateStar
    · simp [hacc, hgt, max_eq_right (le_of_lt hgt)]
    · simp [hacc, hgt, max_eq_left (not_lt.mp hgt)]
  · simp [hacc]

theorem foldl_lsStep_learningRateStar (b m r : scalar) (cand : ℕ → Except Unit scalar)
    (init : List LinearController) (order : List ℕ) (s : LSState) :
    (order.foldl (lsStep b m r cand init) s).learningRateStar =
      order.foldl (fun a j => if lsAccepts b m r cand j then max a (lsAlpha m r j) else a)
        s.learningRateStar := by
  induction order generalizing s with
  | nil => rfl
  | cons j rest ih =>
    simp only [List.foldl_cons]
    rw [ih, lsStep_learningRateStar]

theorem foldl_alpha_le_start (b m r : scalar) (cand : ℕ → Except Unit scalar)
    (order : List ℕ) (a : scalar) :
    a ≤ order.foldl (fun a j => if lsAccepts b m r cand j then max a (lsAlpha m r j) else a) a := by
  induction order generalizing a with
  | nil => exact le_refl a
  | cons j rest ih =>
    refine le_trans ?_ (ih (if lsAccepts b m r cand j then max a (lsAlpha m r j) else a))
    by_cases h : lsAccepts b m r cand j
    · simp [h, le_max_left]
    · simp [h]

theorem foldl_alpha_upper (b m r : scalar) (cand : ℕ → Except Unit scalar)
    (order : List ℕ) (a bound : scalar) (ha : a ≤ bound)
    (helem : ∀ j ∈ order, lsAccepts b m r cand j → lsAlpha m r j ≤ bound) :
    order.foldl (fun a j => if lsAccepts b m r cand j then max a (lsAlpha m r j) else a) a
      ≤ bound := by
  induction order generalizing a with
  | nil => exact ha
  | cons j rest ih =>
    simp only [List.foldl_cons]
    refine ih _ ?_ (fun j' hj' hacc => helem j' (List.mem_cons_of_mem j hj') hacc)
    by_cases h : lsAccepts b m r cand j
    · simpa [h] using max_le ha (helem j (List.mem_cons_self j rest) h)
    · simpa [h] using ha

theorem foldl_alpha_mem_le (b m r : scalar) (cand : ℕ → Except Unit scalar)
    (order : List ℕ) (a : scalar) (j : ℕ) (hj : j ∈ order)
    (hacc : lsAccepts b m r cand j) :
    lsAlpha m r j ≤
      order.foldl (fun a j => if lsAccepts b m r cand j then max a (lsAlpha m r j) else a) a := by
  induction order generalizing a with
  | nil => cases hj
  | cons k rest ih =>
    simp only [List.foldl_cons]
    rcases List.mem_cons.mp hj with rfl | hmem
    · refine le_trans ?_ (foldl_alpha_le_start b m r cand rest _)
      simp [hacc, le_max_right]
    · exact ih _ hmem

theorem foldl_alpha_perm (b m r : scalar) (cand : ℕ → Except Unit scalar)
    (order order2 : List ℕ) (hp : order.Perm order2) (a : scalar) :
    order.foldl (fun a j => if lsAccepts b m r cand j then max a (lsAlpha m r j) else a) a =
      order2.foldl (fun a j => if lsAccepts b m r cand j then max a (lsAlpha m r j) else a) a := by
  refine hp.foldl_eq' ?_ a
  intro x _ y _ z
  by_cases hx : lsAccepts b m r cand x <;> by_cases hy : lsAccepts b m r cand y <;>
    simp [hx, hy, sup_right_comm]

theorem foldl_lsStep_merit_inv (b m r : scalar) (cand : ℕ → Except Unit scalar)
    (init : List LinearController) (order : List ℕ) (s : LSState)
    (hs : (s.learningRateStar = 0 ∧ s.nominalTotalCost = b) ∨
      (0 < s.learningRateStar ∧
        s.nominalTotalCost < b * (1 - 1/1000 * s.learningRateStar))) :
    ((order.foldl (lsStep b m r cand init) s).learningRateStar = 0 ∧
        (order.foldl (lsStep b m r cand init) s).nominalTotalCost = b) ∨
      (0 < (order.foldl (lsStep b m r cand init) s).learningRateStar ∧
        (order.foldl (lsStep b m r cand init) s).nominalTotalCost <
          b * (1 - 1/1000 * (order.foldl (lsStep b m r cand init) s).learningRateStar)) := by
  induction order generalizing s with
  | nil => exact hs
  | cons j rest ih =>
    simp only [List.foldl_cons]
    refine ih _ ?_
    unfold lsStep
    by_cases h : lsAccepts b m r cand j ∧ lsAlpha m r j > s.learningRateStar
    · have hlr0 : (0:scalar) ≤ s.learningRateStar := by
        rcases hs with ⟨h0, _⟩ | ⟨h0, _⟩
        · exact h0.ge
        · exact h0.le
      rw [if_pos h]
      exact Or.inr ⟨lt_of_le_of_lt hlr0 h.2, h.1⟩
    · rw [if_neg h]
      exact hs

theorem foldl_lsStep_exists (b m r : scalar) (cand : ℕ → Except Unit scalar)
    (init : List LinearController) (order : List ℕ) (s : LSState) :
    (order.foldl (lsStep b m r cand init) s).learningRateStar = s.learningRateStar ∨
      ∃ j ∈ order, lsAccepts b m r cand j ∧
        lsAlpha m r j = (order.foldl (lsStep b m r cand init) s).learningRateStar := by
  induction order generalizing s with
  | nil => exact Or.inl rfl
  | cons j rest ih =>
    simp only [List.foldl_cons]
    by_cases h : lsAccepts b m r cand j ∧ lsAlpha m r j > s.learningRateStar
    · have hstep : lsStep b m r cand init s j =
          ⟨lsAlpha m r j, lsCandidateMerit cand j,
            init.map (lsUpdateController (lsAlpha m r j))⟩ := by
        unfold lsStep
        rw [if_pos h]
      rcases ih (lsStep b m r cand init s j) with heq | ⟨j', hj', hacc, hval⟩
      · refine Or.inr ⟨j, List.mem_cons_self j rest, h.1, ?_⟩
        rw [heq, hstep]
      · exact Or.inr ⟨j', List.mem_cons_of_mem j hj', hacc, hval⟩
    · have hstep : lsStep b m r cand init s j = s := by
        unfold lsStep
        rw [if_neg h]
      rw [hstep]
      rcases ih s with heq | ⟨j', hj', hacc, hval⟩
      · exact Or.inl heq
      · exact Or.inr ⟨j', List.mem_cons_of_mem j hj', hacc, hval⟩

theorem foldl_lsStep_id (b m r : scalar) (cand : ℕ → Except Unit scalar)
    (init : List LinearController) (order : List ℕ) (s : LSState)
    (h : ∀ j ∈ order, ¬ lsAccepts b m r cand j) :
    order.foldl (lsStep b m r cand init) s = s := by
  induction order generalizing s with
  | nil => rfl
  | cons j rest ih =>
    simp only [List.foldl_cons]
    have hj : lsStep b m r cand init s j = s := by
      unfold lsStep
      rw [if_neg]
      intro hcontra
      exact h j (List.mem_cons_self j rest) hcontra.1
    rw [hj]
    exact ih s (fun j' hj' => h j' (List.mem_cons_of_mem j hj'))

theorem lsAlpha_nonneg (m r : scalar) (j : ℕ) (hm : 0 ≤ m) (hr : 0 ≤ r) :
    0 ≤ lsAlpha m r j :=
  mul_nonneg hm (pow_nonneg hr j)

theorem lsAlpha_le_max (m r : scalar) (j : ℕ) (hm : 0 ≤ m) (hr0 : 0 ≤ r) (hr1 : r ≤ 1) :
    lsAlpha m r j ≤ m :=
  mul_le_of_le_one_right hm (pow_le_one₀ hr0 hr1)

/-- Claim C1: the line search returns `α* ∈ [0, maxLearningRate]`; whenever
`α* > 0` the committed merit beats the baseline merit by the Armijo-like
margin `M < M₀·(1 − 10⁻³·α*)`; and among the candidates `α_j = α_max·r^j`,
`j < n`, the largest one passing the acceptance test wins — every accepted
candidate is bounded by `α*`, `α*` is zero or itself an accepted candidate,
and the result is independent of the order in which the workers commit. -/
theorem c1_line_search_greedy (n : ℕ) (maxLR rate eps M0 : scalar)
    (cand : ℕ → Except Unit scalar) (order : List ℕ) (ctrls : List LinearController)
    (hperm : order.Perm (List.range n)) (hr0 : 0 < rate) (hr1 : rate ≤ 1)
    (hmax : 0 ≤ maxLR) :
    (0 ≤ (lineSearch maxLR rate eps M0 cand order ctrls).learningRateStar ∧
      (lineSearch maxLR rate eps M0 cand order ctrls).learningRateStar ≤ maxLR) ∧
    (0 < (lineSearch maxLR rate eps M0 cand order ctrls).learningRateStar →
      (lineSearch maxLR rate eps M0 cand order ctrls).nominalTotalCost <
        M0 * (1 - 1/1000 * (lineSearch maxLR rate eps M0 cand order ctrls).learningRateStar)) ∧
    (eps ≤ maxLR →
      (∀ j < n, lsAccepts M0 maxLR rate cand j →
        lsAlpha maxLR rate j ≤ (lineSearch maxLR rate eps M0 cand order ctrls).learningRateStar) ∧
      ((lineSearch maxLR rate eps M0 cand order ctrls).learningRateStar = 0 ∨
        ∃ j < n, lsAccepts M0 maxLR rate cand j ∧
          lsAlpha maxLR rate j =
            (lineSearch maxLR rate eps M0 cand order ctrls).learningRateStar)) ∧
    (∀ order2 : List ℕ, order2.Perm (List.range n) →
      (lineSearch maxLR rate eps M0 cand order2 ctrls).learningRateStar =
        (lineSearch maxLR rate eps M0 cand order ctrls).learningRateStar) := by
  by_cases hearly : maxLR < eps
  · refine ⟨?_, ?_, ?_, ?_⟩
    · simp [lineSearch, hearly, hmax]
    · simp [lineSearch, hearly]
    · intro heps
      exact absurd hearly (not_lt.mpr heps)
    · intro order2 _
      simp [lineSearch, hearly]
  · have hres : ∀ ord : List ℕ,
        (lineSearch maxLR rate eps M0 cand ord ctrls).learningRateStar =
          (ord.foldl (lsStep M0 maxLR rate cand ctrls)
            ⟨0, M0, ctrls⟩).learningRateStar := by
      intro ord
      simp [lineSearch, hearly]
    have hcost : (lineSearch maxLR rate eps M0 cand order ctrls).nominalTotalCost =
        (order.foldl (lsStep M0 maxLR rate cand ctrls) ⟨0, M0, ctrls⟩).nominalTotalCost := by
      simp [lineSearch, hearly]
    refine ⟨⟨?_, ?_⟩, ?_, ?_, ?_⟩
    · rw [hres, foldl_lsStep_learningRateStar]
      exact foldl_alpha_le_start M0 maxLR rate cand order 0
    · rw [hres, foldl_lsStep_learningRateStar]
      exact foldl_alpha_upper M0 maxLR rate cand order 0 maxLR hmax
        (fun j _ _ => lsAlpha_le_max maxLR rate j hmax hr0.le hr1)
    · intro hpos
      rw [hcost, hres]
      rw [hres] at hpos
      rcases foldl_lsStep_merit_inv M0 maxLR rate cand ctrls order ⟨0, M0, ctrls⟩
          (Or.inl ⟨rfl, rfl⟩) with ⟨h0, _⟩ | ⟨_, hlt⟩
      · rw [h0] at hpos
        exact absurd hpos (lt_irrefl 0)
      · exact hlt
    · intro _
      constructor
      · intro j hj hacc
        rw [hres, foldl_lsStep_learningRateStar]
        exact foldl_alpha_mem_le M0 maxLR rate cand order 0 j
          (hperm.mem_iff.mpr (List.mem_range.mpr hj)) hacc
      · rcases foldl_lsStep_exists M0 maxLR rate cand ctrls order ⟨0, M0, ctrls⟩ with
          heq | ⟨j, hj, hacc, hval⟩
        · exact Or.inl (by rw [hres]; exact heq)
        · exact Or.inr ⟨j, List.mem_range.mp (hperm.mem_iff.mp hj), hacc,
            by rw [hres]; exact hval⟩
    · intro order2 hp2
      rw [hres, hres, foldl_lsStep_learningRateStar, foldl_lsStep_learningRateStar]
      exact foldl_alpha_perm M0 maxLR rate cand order2 order (hp2.trans hperm.symm) 0

/-- Witness for C1 with two candidates evaluated in reversed order. -/
theorem c1_line_search_greedy_witness :
    ([1, 0].Perm (List.range 2) ∧ (0:ℚ) < 1/2 ∧ (1:ℚ)/2 ≤ 1 ∧ (0:ℚ) ≤ 4) ∧
    ((0 ≤ (lineSearch 4 (1/2) 1 10 (fun j => Except.ok (j : ℚ)) [1, 0] []).learningRateStar ∧
      (lineSearch 4 (1/2) 1 10 (fun j => Except.ok (j : ℚ)) [1, 0] []).learningRateStar ≤ 4) ∧
    (0 < (lineSearch 4 (1/2) 1 10 (fun j => Except.ok (j : ℚ)) [1, 0] []).learningRateStar →
      (lineSearch 4 (1/2) 1 10 (fun j => Except.ok (j : ℚ)) [1, 0] []).nominalTotalCost <
        10 * (1 - 1/1000 *
          (lineSearch 4 (1/2) 1 10 (fun j => Except.ok (j : ℚ)) [1, 0] []).learningRateStar)) ∧
    ((1:ℚ) ≤ 4 →
      (∀ j < 2, lsAccepts 10 4 (1/2) (fun j => Except.ok (j : ℚ)) j →
        lsAlpha 4 (1/2) j ≤
          (lineSearch 4 (1/2) 1 10 (fun j => Except.ok (j : ℚ)) [1, 0] []).learningRateStar) ∧
      ((lineSearch 4 (1/2) 1 10 (fun j => Except.ok (j : ℚ)) [1, 0] []).learningRateStar = 0 ∨
        ∃ j < 2, lsAccepts 10 4 (1/2) (fun j => Except.ok (j : ℚ)) j ∧
          lsAlpha 4 (1/2) j =
            (lineSearch 4 (1/2) 1 10 (fun j => Except.ok (j : ℚ)) [1, 0] []).learningRateStar)) ∧
    (∀ order2 : List ℕ, order2.Perm (List.range 2) →
      (lineSearch 4 (1/2) 1 10 (fun j => Except.ok (j : ℚ)) order2 []).learningRateStar =
        (lineSearch 4 (1/2) 1 10 (fun j => Except.ok (j : ℚ)) [1, 0] []).learningRateStar)) :=
  ⟨⟨by decide, by norm_num, by norm_num, by norm_num⟩,
    c1_line_search_greedy 2 4 (1/2) 1 10 (fun j => Except.ok (j : ℚ)) [1, 0] []
      (by decide) (by norm_num) (by norm_num) (by norm_num)⟩

/-- Claim C5: a line-search candidate whose rollout throws gets the merit
`std::numeric_limits<scalar_t>::max()` (the spec's "+∞") and, for any
baseline merit that a double can represent and any learning rate within the
validated range, such a candidate can never pass the acceptance test; when no
candidate is accepted the line search completes with the baseline result
`α* = 0`, `M = M₀` — the failure is confined to the candidate and the outer
solve is not aborted. -/
theorem c5_thrown_candidate_harmless (maxLR rate eps M0 : scalar)
    (cand : ℕ → Except Unit scalar) (order : List ℕ) (ctrls : List LinearController)
    (hM0 : M0 ≤ scalarMax) (hmax0 : 0 ≤ maxLR) (hmax1 : maxLR ≤ 1000)
    (hr0 : 0 ≤ rate) (hr1 : rate ≤ 1) :
    (∀ j, cand j = .error () → lsCandidateMerit cand j = scalarMax ∧
      ¬ lsAccepts M0 maxLR rate cand j) ∧
    ((∀ j ∈ order, ¬ lsAccepts M0 maxLR rate cand j) →
      (lineSearch maxLR rate eps M0 cand order ctrls).learningRateStar = 0 ∧
      (lineSearch maxLR rate eps M0 cand order ctrls).nominalTotalCost = M0) := by
  have hsmax : (0:scalar) ≤ scalarMax := by norm_num [scalarMax]
  constructor
  · intro j hj
    have hmerit : lsCandidateMerit cand j = scalarMax := by
      simp [lsCandidateMerit, hj]
    refine ⟨hmerit, ?_⟩
    unfold lsAccepts
    rw [hmerit]
    have hα0 : 0 ≤ lsAlpha maxLR rate j := lsAlpha_nonneg maxLR rate j hmax0 hr0
    have hα1000 : lsAlpha maxLR rate j ≤ 1000 :=
      le_trans (lsAlpha_le_max maxLR rate j hmax0 hr0 hr1) hmax1
    have ht0 : (0:scalar) ≤ 1 - 1/1000 * lsAlpha maxLR rate j := by
      nlinarith
    have ht1 : 1 - 1/1000 * lsAlpha maxLR rate j ≤ 1 := by
      nlinarith
    rcases le_or_lt 0 M0 with hM0pos | hM0neg
    · exact not_lt.mpr (le_trans (mul_le_of_le_one_right hM0pos ht1) hM0)
    · exact not_lt.mpr (le_trans (mul_nonpos_of_nonpos_of_nonneg hM0neg.le ht0) hsmax)
  · intro hnone
    by_cases hearly : maxLR < eps
    · constructor <;> simp [lineSearch, hearly]
    · have hid := foldl_lsStep_id M0 maxLR rate cand ctrls order ⟨0, M0, ctrls⟩ hnone
      constructor <;> simp [lineSearch, hearly, hid]

/-- Witness for C5: one candidate whose rollout throws; the baseline result
is retained. -/
theorem c5_thrown_candidate_harmless_witness :
    (∀ j, (fun _ : ℕ => (Except.error () : Except Unit scalar)) j = .error () →
      lsCandidateMerit (fun _ => Except.error ()) j = scalarMax ∧
      ¬ lsAccepts 7 2 1 (fun _ => Except.error ()) j) ∧
    ((∀ j ∈ [0], ¬ lsAccepts 7 2 1 (fun _ => Except.error ()) j) →
      (lineSearch 2 1 1 7 (fun _ => Except.error ()) [0] []).learningRateStar = 0 ∧
      (lineSearch 2 1 1 7 (fun _ => Except.error ()) [0] []).nominalTotalCost = 7) :=
  c5_thrown_candidate_harmless 2 1 1 7 (fun _ => Except.error ()) [0] []
    (by norm_num [scalarMax]) (by norm_num) (by norm_num) (by norm_num) (by norm_num)

theorem ddpLoopGo_succ (maxIter : ℕ) (conv : ℕ → Bool) (fuel it : ℕ) (flag : Bool) :
    ddpLoopGo maxIter conv (fuel+1) it flag =
      if it + 1 < maxIter ∧ flag = false then
        ddpLoopGo maxIter conv fuel (it+1) (conv (it+1))
      else it := rfl

theorem ddpLoopGo_true (maxIter : ℕ) (conv : ℕ → Bool) (fuel it : ℕ) :
    ddpLoopGo maxIter conv fuel it true = it := by
  cases fuel with
  | zero => rfl
  | succ fuel =>
    rw [ddpLoopGo_succ, if_neg]
    simp

theorem ddpLoopGo_all_false (maxIter : ℕ) (conv : ℕ → Bool)
    (h : ∀ k, 1 ≤ k → conv k = false) :
    ∀ fuel it, it ≤ maxIter - 1 → maxIter - 1 ≤ it + fuel →
      ddpLoopGo maxIter conv fuel it false = maxIter - 1 := by
  intro fuel
  induction fuel with
  | zero =>
    intro it h1 h2
    have : it = maxIter - 1 := by omega
    simpa [ddpLoopGo] using this
  | succ fuel ih =>
    intro it h1 h2
    by_cases hlt : it + 1 < maxIter
    · rw [ddpLoopGo_succ, if_pos ⟨hlt, rfl⟩, h (it + 1) (by omega)]
      exact ih (it + 1) (by omega) (by omega)
    · have : it = maxIter - 1 := by omega
      rw [ddpLoopGo_succ, if_neg (by simp [hlt])]
      exact this

theorem ddpLoopGo_first_true (maxIter : ℕ) (conv : ℕ → Bool) (k0 : ℕ)
    (hk1 : 1 ≤ k0) (hk0 : k0 ≤ maxIter - 1) (hconv : conv k0 = true)
    (hbefore : ∀ j, 1 ≤ j → j < k0 → conv j = false) :
    ∀ fuel it, it < k0 → k0 ≤ it + fuel →
      ddpLoopGo maxIter conv fuel it false = k0 := by
  intro fuel
  induction fuel with
  | zero =>
    intro it h1 h2
    omega
  | succ fuel ih =>
    intro it h1 h2
    have hlt : it + 1 < maxIter := by omega
    rw [ddpLoopGo_succ, if_pos ⟨hlt, rfl⟩]
    by_cases heq : it + 1 = k0
    · rw [heq, hconv]
      exact ddpLoopGo_true maxIter conv fuel k0
    · rw [hbefore (it + 1) (by omega) (by omega)]
      exact ih (it + 1) (by omega) (by omega)

/-- Claim C4: at every iteration `k ≥ 1` the loop-break flag of `runImpl` is
true exactly when (`|M_k − M_{k−1}| ≤ minRelCost`, or `α* = 0` while the
controller entering the iteration was non-empty) and (`ISE₁ ≤ minAbs`, or
`|ΔISE₁| ≤ minRel`); the main loop stops at the first converged iteration and
otherwise iterates until `maxNumIterations` (final iteration counter
`maxNumIterations − 1`). -/
theorem c4_convergence_test (s : DdpConvergenceSettings)
    (cachedCost nominalTotalCost cachedISE1 ise1 learningRateStar : scalar)
    (isInitInternalControllerEmpty : Bool) (conv : ℕ → Bool)
    (hM : 1 ≤ s.maxNumIterations) :
    (isOptimizationConverged s cachedCost nominalTotalCost cachedISE1 ise1
        learningRateStar isInitInternalControllerEmpty = true ↔
      ((|nominalTotalCost - cachedCost| ≤ s.minRelCost ∨
          (learningRateStar = 0 ∧ isInitInternalControllerEmpty = false)) ∧
        (ise1 ≤ s.minAbsConstraint1ISE ∨ |ise1 - cachedISE1| ≤ s.minRelConstraint1ISE))) ∧
    ((∀ k, 1 ≤ k → conv k = false) →
      ddpFinalIteration s.maxNumIterations conv = s.maxNumIterations - 1) ∧
    (∀ k0, 1 ≤ k0 → k0 ≤ s.maxNumIterations - 1 → conv k0 = true →
      (∀ j, 1 ≤ j → j < k0 → conv j = false) →
      ddpFinalIteration s.maxNumIterations conv = k0) := by
  refine ⟨?_, ?_, ?_⟩
  · unfold isOptimizationConverged
    simp [Bool.and_eq_true, Bool.or_eq_true, decide_eq_true_eq, Bool.not_eq_true',
      and_comm]
  · intro h
    exact ddpLoopGo_all_false s.maxNumIterations conv h s.maxNumIterations 0
      (by omega) (by omega)
  · intro k0 hk1 hk0 hconv hbefore
    exact ddpLoopGo_first_true s.maxNumIterations conv k0 hk1 hk0 hconv hbefore
      s.maxNumIterations 0 (by omega) (by omega)

/-- Witness for C4: five allowed iterations, convergence first flagged at
iteration 2. -/
theorem c4_convergence_test_witness :
    (1 ≤ (5:ℕ)) ∧
    ((isOptimizationConverged ⟨5, 1, 1, 1⟩ 10 10 0 0 0 false = true ↔
      ((|(10:ℚ) - 10| ≤ (1:ℚ) ∨ ((0:ℚ) = 0 ∧ false = false)) ∧
        ((0:ℚ) ≤ 1 ∨ |(0:ℚ) - 0| ≤ 1))) ∧
    ((∀ k, 1 ≤ k → (fun k => decide (k = 2)) k = false) →
      ddpFinalIteration 5 (fun k => decide (k = 2)) = 4) ∧
    (∀ k0, 1 ≤ k0 → k0 ≤ 4 → (fun k => decide (k = 2)) k0 = true →
      (∀ j, 1 ≤ j → j < k0 → (fun k => decide (k = 2)) j = false) →
      ddpFinalIteration 5 (fun k => decide (k = 2)) = k0)) :=
  ⟨by decide,
    c4_convergence_test ⟨5, 1, 1, 1⟩ 10 10 0 0 0 false (fun k => decide (k = 2)) (by decide)⟩

/-- Counterexample for C6: with `maxLearningRate < ε` the model still performs
the baseline rollout (DDP_BASE.h:736 precedes the early return at
DDP_BASE.h:743-754), so the claim's "having performed no rollout" fails. -/
theorem c6_counterexample :
    ¬ (lineSearch 0 (1/2) 1 5 (fun _ => Except.ok 0) [] []).numRollouts = 0 := by
  decide

/-- Claim C6 as amended: if `maxLearningRate < ε`, `lineSearch` clears the
feed-forward increments of every partition's controller and returns
`α* = 0` after performing only the baseline rollout (one rollout, no
candidate rollout). -/
theorem c6_amended_early_return (maxLR rate eps M0 : scalar)
    (cand : ℕ → Except Unit scalar) (order : List ℕ) (ctrls : List LinearController)
    (h : maxLR < eps) :
    (lineSearch maxLR rate eps M0 cand order ctrls).learningRateStar = 0 ∧
    (∀ c ∈ (lineSearch maxLR rate eps M0 cand order ctrls).nominalControllersStock,
      c.deltaBiasArray = []) ∧
    (lineSearch maxLR rate eps M0 cand order ctrls).numRollouts = 1 := by
  refine ⟨?_, lineSearch_clears_deltaBias maxLR rate eps M0 cand order ctrls, ?_⟩ <;>
    simp [lineSearch, h]

theorem getD_append_left' (l l' : List scalar) (n : ℕ) (d : scalar) (h : n < l.length) :
    (l ++ l').getD n d = l.getD n d := by
  simp [List.getD_eq_getElem?_getD, List.getElem?_append_left h]

theorem getD_append_right' (l l' : List scalar) (n : ℕ) (d : scalar) (h : l.length ≤ n) :
    (l ++ l').getD n d = l'.getD (n - l.length) d := by
  simp [List.getD_eq_getElem?_getD, List.getElem?_append_right h]

theorem getD_dropLast' (l : List scalar) (i : ℕ) (d : scalar) (h : i < l.length - 1) :
    l.dropLast.getD i d = l.getD i d := by
  rw [List.getD_eq_getElem?_getD, List.getD_eq_getElem?_getD, List.getElem?_dropLast,
    if_pos h]

theorem head?_getD (l : List scalar) (a d : scalar) (h : l.head? = some a) :
    l.getD 0 d = a := by
  rw [List.getD_eq_getElem?_getD, ← List.head?_eq_getElem?, h]
  rfl

theorem getLastD_getD (l : List scalar) (d : scalar) :
    l.getLastD d = l.getD (l.length - 1) d := by
  rw [List.getLastD_eq_getLast?, List.getLast?_eq_getElem?, List.getD_eq_getElem?_getD]

theorem pairwise_lt_mem_le_getLastD (l : List ℕ) (hp : l.Pairwise (· < ·)) :
    ∀ j ∈ l, j ≤ l.getLastD 0 := by
  induction l with
  | nil =>
    intro j hj
    cases hj
  | cons x xs ih =>
    intro j hj
    rcases List.pairwise_cons.mp hp with ⟨hx, hxs⟩
    rw [List.getLastD_cons]
    cases xs with
    | nil =>
      rcases List.mem_cons.mp hj with rfl | hmem
      · simp [List.getLastD]
      · cases hmem
    | cons y ys =>
      have hne : (y :: ys) ≠ ([] : List ℕ) := by simp
      rcases List.mem_cons.mp hj with rfl | hmem
      · have hgd : (y :: ys).getLastD j = (y :: ys).getLast hne := by
          simp [List.getLastD_eq_getLast?, List.getLast?_eq_getLast _ hne]
        rw [hgd]
        exact (hx _ (List.getLast_mem hne)).le
      · rw [getLastD_of_ne_nil _ x 0 hne]
        exact ih hxs j hmem

theorem segWF_append (a b : RolloutSeg) (ha : SegWF a) (hb : SegWF b) :
    SegWF (appendShifted a b) := by
  obtain ⟨hap, ham⟩ := ha
  obtain ⟨hbp, hbm⟩ := hb
  simp only [SegWF, appendShifted]
  constructor
  · refine List.pairwise_append.mpr ⟨hap, hbp.map _ (fun h => by omega), ?_⟩
    intro x hx y hy
    rcases List.mem_map.mp hy with ⟨j, hj, rfl⟩
    have hxlt := (ham x hx).2.1
    omega
  · intro j hj
    rcases List.mem_append.mp hj with hja | hjb
    · obtain ⟨h1, h2, h3⟩ := ham j hja
      refine ⟨h1, ?_, ?_⟩
      · simp only [List.length_append]
        omega
      · rw [getD_append_left' _ _ _ _ (by omega), getD_append_left' _ _ _ _ h2]
        exact h3
    · rcases List.mem_map.mp hjb with ⟨j', hj', rfl⟩
      obtain ⟨h1, h2, h3⟩ := hbm j' hj'
      refine ⟨by omega, ?_, ?_⟩
      · simp only [List.length_append]
        omega
      · rw [getD_append_right' _ _ _ _ (by omega), getD_append_right' _ _ _ _ (by omega)]
        have e1 : j' + a.times.length - 1 - a.times.length = j' - 1 := by omega
        have e2 : j' + a.times.length - a.times.length = j' := by omega
        rw [e1, e2]
        exact h3

theorem segWF_popAppend (cs tail : RolloutSeg) (hcs : SegWF cs)
    (hne : cs.post ≠ []) (hlast : cs.post.getLastD 0 + 1 = cs.times.length)
    (htail : SegWF tail) (hhead : tail.times.head? = some (cs.times.getLastD 0)) :
    SegWF (appendShifted ⟨cs.times.dropLast, cs.post⟩ tail) := by
  obtain ⟨hcp, hcm⟩ := hcs
  obtain ⟨htp, htm⟩ := htail
  have htailne : tail.times ≠ [] := by
    intro hnil
    rw [hnil] at hhead
    cases hhead
  have htaillen : 1 ≤ tail.times.length := List.length_pos.mpr htailne
  have hjle : ∀ j ∈ cs.post, j ≤ cs.times.length - 1 := by
    intro j hj
    have := pairwise_lt_mem_le_getLastD cs.post hcp j hj
    omega
  simp only [SegWF, appendShifted, List.length_dropLast, List.length_append]
  constructor
  · refine List.pairwise_append.mpr ⟨hcp, htp.map _ (fun h => by omega), ?_⟩
    intro x hx y hy
    rcases List.mem_map.mp hy with ⟨j, hj, rfl⟩
    have hx1 := hjle x hx
    have hj1 := (htm j hj).1
    omega
  · intro j hj
    rcases List.mem_append.mp hj with hja | hjb
    · obtain ⟨h1, h2, h3⟩ := hcm j hja
      have hle := hjle j hja
      refine ⟨h1, by omega, ?_⟩
      by_cases hjP : j < cs.times.length - 1
      · rw [getD_append_left' _ _ _ _ (by simp only [List.length_dropLast]; omega),
          getD_append_left' _ _ _ _ (by simp only [List.length_dropLast]; omega),
          getD_dropLast' _ _ _ (by omega), getD_dropLast' _ _ _ hjP]
        exact h3
      · have hjeq : j = cs.times.length - 1 := by omega
        subst hjeq
        rw [getD_append_left' _ _ _ _ (by simp only [List.length_dropLast]; omega),
          getD_dropLast' _ _ _ (by omega),
          getD_append_right' _ _ _ _ (by simp only [List.length_dropLast]; omega)]
        have e0 : cs.times.length - 1 - cs.times.dropLast.length = 0 := by
          simp only [List.length_dropLast]
          omega
        rw [e0, head?_getD tail.times _ 0 hhead, getLastD_getD]
        exact h3
    · rcases List.mem_map.mp hjb with ⟨j', hj', rfl⟩
      obtain ⟨h1, h2, h3⟩ := htm j' hj'
      refine ⟨by omega, by omega, ?_⟩
      rw [getD_append_right' _ _ _ _ (by simp only [List.length_dropLast]; omega),
        getD_append_right' _ _ _ _ (by simp only [List.length_dropLast]; omega)]
      have e1 : j' + (cs.times.length - 1) - 1 - cs.times.dropLast.length = j' - 1 := by
        simp only [List.length_dropLast]
        omega
      have e2 : j' + (cs.times.length - 1) - cs.times.dropLast.length = j' := by
        simp only [List.length_dropLast]
        omega
      rw [e1, e2]
      exact h3

theorem rolloutPartition_WF (t0 tf uct : scalar) (ctrlRun opRun : scalar → scalar → RolloutSeg)
    (hc : ∀ a b : scalar, a < b → SegWF (ctrlRun a b))
    (hclast : ∀ a b : scalar, a < b → (ctrlRun a b).times.getLast? = some b)
    (ho : ∀ a b : scalar, a < b → SegWF (opRun a b))
    (hohead : ∀ a b : scalar, a < b → (opRun a b).times.head? = some a) :
    SegWF (rolloutPartition t0 tf uct ctrlRun opRun) := by
  have hemptyWF : SegWF (⟨[], []⟩ : RolloutSeg) :=
    ⟨List.Pairwise.nil, fun j hj => absurd hj (List.not_mem_nil j)⟩
  dsimp only [rolloutPartition]
  by_cases hop : max t0 (min uct tf) < tf
  · by_cases ht0 : t0 < max t0 (min uct tf)
    · rw [if_pos ht0, if_pos hop]
      have hcs := hc t0 (max t0 (min uct tf)) ht0
      have hlastcs := hclast t0 (max t0 (min uct tf)) ht0
      have hgd : (ctrlRun t0 (max t0 (min uct tf))).times.getLastD 0 = max t0 (min uct tf) := by
        rw [List.getLastD_eq_getLast?, hlastcs]
        rfl
      by_cases hpop : (ctrlRun t0 (max t0 (min uct tf))).post ≠ [] ∧
          (ctrlRun t0 (max t0 (min uct tf))).post.getLastD 0 + 1 =
            (ctrlRun t0 (max t0 (min uct tf))).times.length
      · rw [if_pos hpop, hgd]
        refine segWF_popAppend _ _ hcs hpop.1 hpop.2 (ho _ _ hop) ?_
        rw [hgd]
        exact hohead _ _ hop
      · rw [if_neg hpop]
        exact segWF_append _ _ hcs (ho _ _ hop)
    · rw [if_neg ht0, if_pos hop, if_neg (by simp)]
      exact segWF_append _ _ hemptyWF (ho _ _ hop)
  · rw [if_neg hop]
    by_cases ht0 : t0 < max t0 (min uct tf)
    · rw [if_pos ht0]
      exact hc t0 _ ht0
    · rw [if_neg ht0]
      exact hemptyWF

theorem getD_set_ne {α : Type _} (l : List α) (i j : ℕ) (x d : α) (h : i ≠ j) :
    (l.set i x).getD j d = l.getD j d := by
  simp [List.getD_eq_getElem?_getD, List.getElem?_set_ne h]

theorem getD_set_self {α : Type _} (l : List α) (i : ℕ) (x d : α) (h : i < l.length) :
    (l.set i x).getD i d = x := by
  simp [List.getD_eq_getElem?_getD, List.getElem?_set_self h]

theorem swapIdx_length {α : Type _} (d : α) (l : List α) (i j : ℕ) :
    (swapIdx d l i j).length = l.length := by
  simp [swapIdx]

theorem rewindSwapGo_spec {α : Type _} (f preserved : ℕ) (zero d : α) (old : List α)
    (hf : 1 ≤ f) (hfp : preserved + f = old.length) :
    ∀ fuel i l, fuel + i = old.length → l.length = old.length →
      (∀ j, j < min i preserved → l.getD j d = old.getD (f + j) d) →
      (∀ j, preserved ≤ j → j < i → l.getD j d = zero) →
      (∀ j, f + i ≤ j → l.getD j d = old.getD j d) →
      ∀ j, j < old.length →
        (rewindSwapGo f preserved zero d fuel i l).getD j d =
          if j < preserved then old.getD (f + j) d else zero := by
  intro fuel
  induction fuel with
  | zero =>
    intro i l hcount hlen hinv1 hinv2 hinv3 j hj
    have hiK : i = old.length := by omega
    by_cases hjp : j < preserved
    · rw [if_pos hjp, rewindSwapGo]
      exact hinv1 j (by omega)
    · rw [if_neg hjp, rewindSwapGo]
      exact hinv2 j (by omega) (by omega)
  | succ fuel ih =>
    intro i l hcount hlen hinv1 hinv2 hinv3 j hj
    rw [rewindSwapGo]
    by_cases hip : i < preserved
    · rw [if_pos hip]
      have hfi : f + i < old.length := by omega
      refine ih (i+1) _ (by omega) (by rw [swapIdx_length]; exact hlen) ?_ ?_ ?_ j hj
      · intro j' hj'
        by_cases hji : j' = i
        · subst hji
          have hval : (swapIdx d l j' (f + j')).getD j' d = l.getD (f + j') d := by
            rw [swapIdx, getD_set_ne _ _ _ _ _ (by omega), getD_set_self _ _ _ _ (by omega)]
          rw [hval]
          exact hinv3 (f + j') (by omega)
        · have : (swapIdx d l i (f + i)).getD j' d = l.getD j' d := by
            rw [swapIdx, getD_set_ne _ _ _ _ _ (by omega), getD_set_ne _ _ _ _ _ (by omega)]
          rw [this]
          exact hinv1 j' (by omega)
      · intro j' hj'1 hj'2
        omega
      · intro j' hj'
        have : (swapIdx d l i (f + i)).getD j' d = l.getD j' d := by
          rw [swapIdx, getD_set_ne _ _ _ _ _ (by omega), getD_set_ne _ _ _ _ _ (by omega)]
        rw [this]
        exact hinv3 j' (by omega)
    · rw [if_neg hip]
      have hiK : i < old.length := by omega
      refine ih (i+1) _ (by omega) (by rw [List.length_set]; exact hlen) ?_ ?_ ?_ j hj
      · intro j' hj'
        rw [getD_set_ne _ _ _ _ _ (by omega)]
        exact hinv1 j' (by omega)
      · intro j' hj'1 hj'2
        by_cases hji : j' = i
        · subst hji
          exact getD_set_self _ _ _ _ (by omega)
        · rw [getD_set_ne _ _ _ _ _ (by omega)]
          exact hinv2 j' hj'1 (by omega)
      · intro j' hj'
        rw [getD_set_ne _ _ _ _ _ (by omega)]
        exact hinv3 j' (by omega)

theorem rewindAssignGo_spec {α : Type _} (f preserved : ℕ) (zero d : α) (old : List α)
    (hf : 1 ≤ f) (hfp : preserved + f = old.length) :
    ∀ fuel i l, fuel + i = old.length → l.length = old.length →
      (∀ j, j < min i preserved → l.getD j d = old.getD (f + j) d) →
      (∀ j, preserved ≤ j → j < i → l.getD j d = zero) →
      (∀ j, i ≤ j → l.getD j d = old.getD j d) →
      ∀ j, j < old.length →
        (rewindAssignGo f preserved zero d fuel i l).getD j d =
          if j < preserved then old.getD (f + j) d else zero := by
  intro fuel
  induction fuel with
  | zero =>
    intro i l hcount hlen hinv1 hinv2 hinv3 j hj
    by_cases hjp : j < preserved
    · rw [if_pos hjp, rewindAssignGo]
      exact hinv1 j (by omega)
    · rw [if_neg hjp, rewindAssignGo]
      exact hinv2 j (by omega) (by omega)
  | succ fuel ih =>
    intro i l hcount hlen hinv1 hinv2 hinv3 j hj
    rw [rewindAssignGo]
    by_cases hip : i < preserved
    · rw [if_pos hip]
      refine ih (i+1) _ (by omega) (by rw [List.length_set]; exact hlen) ?_ ?_ ?_ j hj
      · intro j' hj'
        by_cases hji : j' = i
        · subst hji
          rw [getD_set_self _ _ _ _ (by omega)]
          exact hinv3 (f + j') (by omega)
        · rw [getD_set_ne _ _ _ _ _ (by omega)]
          exact hinv1 j' (by omega)
      · intro j' hj'1 hj'2
        omega
      · intro j' hj'
        rw [getD_set_ne _ _ _ _ _ (by omega)]
        exact hinv3 j' (by omega)
    · rw [if_neg hip]
      refine ih (i+1) _ (by omega) (by rw [List.length_set]; exact hlen) ?_ ?_ ?_ j hj
      · intro j' hj'
        rw [getD_set_ne _ _ _ _ _ (by omega)]
        exact hinv1 j' (by omega)
      · intro j' hj'1 hj'2
        by_cases hji : j' = i
        · subst hji
          exact getD_set_self _ _ _ _ (by omega)
        · rw [getD_set_ne _ _ _ _ _ (by omega)]
          exact hinv2 j' hj'1 (by omega)
      · intro j' hj'
        rw [getD_set_ne _ _ _ _ _ (by omega)]
        exact hinv3 j' (by omega)

theorem rewindSwapGo_full {α : Type _} (f K : ℕ) (zero d : α) (l : List α)
    (hf : 1 ≤ f) (hfK : f ≤ K) (hlen : l.length = K) :
    ∀ j, j < K →
      (rewindSwapGo f (K - f) zero d K 0 l).getD j d =
        if j < K - f then l.getD (f + j) d else zero := by
  intro j hj
  have := rewindSwapGo_spec f (K - f) zero d l hf (by omega) K 0 l (by omega) rfl
    (fun j' hj' => by omega) (fun j' hj'1 hj'2 => by omega) (fun j' _ => rfl) j (by omega)
  simpa [hlen] using this

theorem rewindAssignGo_full {α : Type _} (f K : ℕ) (zero d : α) (l : List α)
    (hf : 1 ≤ f) (hfK : f ≤ K) (hlen : l.length = K) :
    ∀ j, j < K →
      (rewindAssignGo f (K - f) zero d K 0 l).getD j d =
        if j < K - f then l.getD (f + j) d else zero := by
  intro j hj
  have := rewindAssignGo_spec f (K - f) zero d l hf (by omega) K 0 l (by omega) rfl
    (fun j' hj' => by omega) (fun j' hj'1 hj'2 => by omega) (fun j' _ => rfl) j (by omega)
  simpa [hlen] using this

/-- Claim C8: for `0 < firstIndex ≤ K`, `rewindOptimizer` succeeds and shifts
every per-partition array left by `firstIndex` — partition `i < K − firstIndex`
receives what partition `i + firstIndex` held — and clears/zeroes every
partition `i ≥ K − firstIndex`. -/
theorem c8_rewindOptimizer {C M V : Type} (emptyController : C) (zeroM : M) (zeroV : V)
    (K f : ℕ) (s : RewindState C M V) (hf : 0 < f) (hfK : f ≤ K)
    (h1 : s.nominalControllersStock.length = K) (h2 : s.SmFinalStock.length = K)
    (h3 : s.SvFinalStock.length = K) (h4 : s.SveFinalStock.length = K)
    (h5 : s.sFinalStock.length = K) (h6 : s.xFinalStock.length = K) :
    ∃ s', rewindOptimizer emptyController zeroM zeroV K f s = .ok s' ∧
      (∀ i, i < K - f →
        s'.nominalControllersStock.getD i emptyController =
          s.nominalControllersStock.getD (f + i) emptyController ∧
        s'.SmFinalStock.getD i zeroM = s.SmFinalStock.getD (f + i) zeroM ∧
        s'.SvFinalStock.getD i zeroV = s.SvFinalStock.getD (f + i) zeroV ∧
        s'.SveFinalStock.getD i zeroV = s.SveFinalStock.getD (f + i) zeroV ∧
        s'.sFinalStock.getD i 0 = s.sFinalStock.getD (f + i) 0 ∧
        s'.xFinalStock.getD i zeroV = s.xFinalStock.getD (f + i) zeroV) ∧
      (∀ i, K - f ≤ i → i < K →
        s'.nominalControllersStock.getD i emptyController = emptyController ∧
        s'.SmFinalStock.getD i zeroM = zeroM ∧
        s'.SvFinalStock.getD i zeroV = zeroV ∧
        s'.SveFinalStock.getD i zeroV = zeroV ∧
        s'.sFinalStock.getD i 0 = 0 ∧
        s'.xFinalStock.getD i zeroV = zeroV) := by
  have hok : rewindOptimizer emptyController zeroM zeroV K f s =
      .ok { nominalControllersStock :=
              rewindSwapGo f (K - f) emptyController emptyController K 0
                s.nominalControllersStock,
            SmFinalStock := rewindAssignGo f (K - f) zeroM zeroM K 0 s.SmFinalStock,
            SvFinalStock := rewindAssignGo f (K - f) zeroV zeroV K 0 s.SvFinalStock,
            SveFinalStock := rewindAssignGo f (K - f) zeroV zeroV K 0 s.SveFinalStock,
            sFinalStock := rewindAssignGo f (K - f) 0 0 K 0 s.sFinalStock,
            xFinalStock := rewindAssignGo f (K - f) zeroV zeroV K 0 s.xFinalStock } := by
    unfold rewindOptimizer
    rw [if_neg (by omega), if_neg (by omega)]
  refine ⟨_, hok, ?_, ?_⟩
  · intro i hi
    refine ⟨?_, ?_, ?_, ?_, ?_, ?_⟩ <;>
      first
        | rw [rewindSwapGo_full f K _ _ _ (by omega) hfK h1 i (by omega), if_pos hi]
        | rw [rewindAssignGo_full f K _ _ _ (by omega) hfK h2 i (by omega), if_pos hi]
        | rw [rewindAssignGo_full f K _ _ _ (by omega) hfK h3 i (by omega), if_pos hi]
        | rw [rewindAssignGo_full f K _ _ _ (by omega) hfK h4 i (by omega), if_pos hi]
        | rw [rewindAssignGo_full f K _ _ _ (by omega) hfK h5 i (by omega), if_pos hi]
        | rw [rewindAssignGo_full f K _ _ _ (by omega) hfK h6 i (by omega), if_pos hi]
  · intro i hi1 hi2
    refine ⟨?_, ?_, ?_, ?_, ?_, ?_⟩ <;>
      first
        | rw [rewindSwapGo_full f K _ _ _ (by omega) hfK h1 i (by omega), if_neg (by omega)]
        | rw [rewindAssignGo_full f K _ _ _ (by omega) hfK h2 i (by omega), if_neg (by omega)]
        | rw [rewindAssignGo_full f K _ _ _ (by omega) hfK h3 i (by omega), if_neg (by omega)]
        | rw [rewindAssignGo_full f K _ _ _ (by omega) hfK h4 i (by omega), if_neg (by omega)]
        | rw [rewindAssignGo_full f K _ _ _ (by omega) hfK h5 i (by omega), if_neg (by omega)]
        | rw [rewindAssignGo_full f K _ _ _ (by omega) hfK h6 i (by omega), if_neg (by omega)]

/-- Witness for C8: `rewind(1)` on a three-partition optimizer moves the data
of partitions 1 and 2 into partitions 0 and 1 and zeroes partition 2. -/
theorem c8_rewindOptimizer_witness :
    ∃ s', rewindOptimizer (0:ℚ) (0:ℚ) (0:ℚ) 3 1
        ⟨[10, 20, 30], [1, 2, 3], [4, 5, 6], [7, 8, 9], [11, 12, 13], [14, 15, 16]⟩ =
          .ok s' ∧
      (∀ i, i < 3 - 1 →
        s'.nominalControllersStock.getD i 0 =
          ([10, 20, 30] : List ℚ).getD (1 + i) 0 ∧
        s'.SmFinalStock.getD i 0 = ([1, 2, 3] : List ℚ).getD (1 + i) 0 ∧
        s'.SvFinalStock.getD i 0 = ([4, 5, 6] : List ℚ).getD (1 + i) 0 ∧
        s'.SveFinalStock.getD i 0 = ([7, 8, 9] : List ℚ).getD (1 + i) 0 ∧
        s'.sFinalStock.getD i 0 = ([11, 12, 13] : List ℚ).getD (1 + i) 0 ∧
        s'.xFinalStock.getD i 0 = ([14, 15, 16] : List ℚ).getD (1 + i) 0) ∧
      (∀ i, 3 - 1 ≤ i → i < 3 →
        s'.nominalControllersStock.getD i 0 = 0 ∧
        s'.SmFinalStock.getD i 0 = 0 ∧
        s'.SvFinalStock.getD i 0 = 0 ∧
        s'.SveFinalStock.getD i 0 = 0 ∧
        s'.sFinalStock.getD i 0 = 0 ∧
        s'.xFinalStock.getD i 0 = 0) :=
  c8_rewindOptimizer 0 0 0 3 1
    ⟨[10, 20, 30], [1, 2, 3], [4, 5, 6], [7, 8, 9], [11, 12, 13], [14, 15, 16]⟩
    (by decide) (by decide) rfl rfl rfl rfl rfl rfl

/-- Claim C7: after a rollout, in every partition every post-event index `j`
satisfies `1 ≤ j < |time|`, the indices are strictly increasing, and
`time[j−1] = time[j]` — including the case where the controller interval ended
exactly at a post-event sample and the duplicated sample was popped before the
operating-point interval was appended.  The integrator contract supplies:
well-formed segments, the controller segment's last sample at the interval
end, and the operating-point segment's first sample at its start time. -/
theorem c7_post_event_time_stamps (partitionBounds : List (scalar × scalar)) (uct : scalar)
    (ctrlRun opRun : scalar → scalar → RolloutSeg)
    (hc : ∀ a b : scalar, a < b → SegWF (ctrlRun a b))
    (hclast : ∀ a b : scalar, a < b → (ctrlRun a b).times.getLast? = some b)
    (ho : ∀ a b : scalar, a < b → SegWF (opRun a b))
    (hohead : ∀ a b : scalar, a < b → (opRun a b).times.head? = some a) :
    ∀ seg ∈ rolloutTrajectory partitionBounds uct ctrlRun opRun, SegWF seg := by
  intro seg hseg
  unfold rolloutTrajectory at hseg
  rcases List.mem_map.mp hseg with ⟨p, _, rfl⟩
  exact rolloutPartition_WF p.1 p.2 uct ctrlRun opRun hc hclast ho hohead

/-- Witness for C7 on one partition split between a controller interval and an
operating-point interval. -/
theorem c7_post_event_time_stamps_witness :
    SegWF (rolloutPartition (0:ℚ) 2 1
      (fun a b => ⟨[a, b], []⟩) (fun a b => ⟨[a, b], []⟩)) :=
  c7_post_event_time_stamps [((0:ℚ), 2)] 1
    (fun a b => ⟨[a, b], []⟩) (fun a b => ⟨[a, b], []⟩)
    (fun _ _ _ => ⟨List.Pairwise.nil, fun j hj => absurd hj (List.not_mem_nil j)⟩)
    (fun _ _ _ => rfl)
    (fun _ _ _ => ⟨List.Pairwise.nil, fun j hj => absurd hj (List.not_mem_nil j)⟩)
    (fun _ _ _ => rfl)
    (rolloutPartition (0:ℚ) 2 1 (fun a b => ⟨[a, b], []⟩) (fun a b => ⟨[a, b], []⟩))
    (List.mem_singleton.mpr rfl)

/-- Witness for the amended C6 at a concrete early-return instance. -/
theorem c6_amended_early_return_witness :
    (lineSearch 0 (1/2) 1 5 (fun _ => Except.ok 0) [] []).learningRateStar = 0 ∧
    (∀ c ∈ (lineSearch 0 (1/2) 1 5 (fun _ => Except.ok 0) [] []).nominalControllersStock,
      c.deltaBiasArray = []) ∧
    (lineSearch 0 (1/2) 1 5 (fun _ => Except.ok 0) [] []).numRollouts = 1 :=
  c6_amended_early_return 0 (1/2) 1 5 (fun _ => Except.ok 0) [] [] (by norm_num)

end Ocs2
